import Mathlib

/-!
Shallow embedding of the LOF backtesting engine and its verification.

The embedding follows the Python sources:
  - src/engine/account.py   (Account, PendingSettlement, T+2 settlement)
  - src/engine/backtest.py  (calculate_subscription_fee, BacktestEngine,
                             BacktestResult)
  - src/config.py           (BacktestConfig and its validation)

Modelling conventions:
  - monetary amounts, prices, shares and rates are rationals (Python floats
    are treated as exact real arithmetic);
  - dates are day numbers (naturals); Python timedelta(days = n) is + n;
  - float('inf') values (daily subscription limits, unbounded signal
    amounts, the unbounded cash cap) are Option rationals where none is
    positive infinity;
  - Python dicts keyed by ticker are association lists in insertion order;
  - Python exceptions (ValueError on insufficient cash or shares, KeyError
    on a missing positions key) are Except results that propagate through
    the day loop, aborting a run exactly as an uncaught exception would.
-/

/-- Floating-point tolerance used throughout account.py (1e-9). -/
def eps : ℚ := 1 / 1000000000

/-- Python dict read with default: d.get(k, 0.0). -/
def dictGet (l : List (String × ℚ)) (k : String) : ℚ :=
  match l.find? (fun e => e.fst == k) with
  | some e => e.snd
  | none => 0

/-- Python dict write d[k] = v: overwrite the existing entry in place,
append a new entry at the end when the key is absent. -/
def dictSet (l : List (String × ℚ)) (k : String) (v : ℚ) : List (String × ℚ) :=
  match l with
  | [] => [(k, v)]
  | e :: rest => if e.fst == k then (k, v) :: rest else e :: dictSet rest k v

/-- Minimum on extended rationals, none being positive infinity: models
Python min over floats that may be float('inf'). -/
def xmin : Option ℚ → Option ℚ → Option ℚ
  | none, b => b
  | some x, none => some x
  | some x, some y => some (min x y)

/-- Test x ≤ 0 on extended rationals (infinity is not ≤ 0). -/
def xnonpos : Option ℚ → Bool
  | none => false
  | some q => q ≤ 0

/-- Test 0 < x on extended rationals (infinity is positive). -/
def xpos : Option ℚ → Bool
  | none => true
  | some q => 0 < q

/-- A pending T+2 settlement entry (account.py, PendingSettlement). -/
structure PendingSettlement where
  settle_date : ℕ
  ticker : String
  shares : ℚ

/-- The trading account (account.py, Account): cash, settled positions,
pending settlements and the current simulation date. -/
structure Account where
  cash : ℚ
  positions : List (String × ℚ)
  pending : List PendingSettlement
  current_date : Option ℕ

/-- Account.get_available_shares: settled shares of a ticker. -/
def Account.get_available_shares (a : Account) (ticker : String) : ℚ :=
  dictGet a.positions ticker

/-- Account.get_pending_shares: total unsettled shares of a ticker. -/
def Account.get_pending_shares (a : Account) (ticker : String) : ℚ :=
  ((a.pending.filter (fun p => p.ticker == ticker)).map PendingSettlement.shares).sum

/-- Account.get_total_shares: settled plus pending shares of a ticker. -/
def Account.get_total_shares (a : Account) (ticker : String) : ℚ :=
  a.get_available_shares ticker + a.get_pending_shares ticker

/-- Account.update_date: advance the simulation date and mature every
pending settlement whose settle date is ≤ the new date, merging its shares
into the settled positions; the rest stay pending. -/
def Account.update_date (a : Account) (current_date : ℕ) : Account :=
  let matured := a.pending.filter (fun p => p.settle_date ≤ current_date)
  let still_pending := a.pending.filter (fun p => !(p.settle_date ≤ current_date : Bool))
  { cash := a.cash
    positions := matured.foldl
      (fun pos p => dictSet pos p.ticker (dictGet pos p.ticker + p.shares)) a.positions
    pending := still_pending
    current_date := some current_date }

/-- Account.sell: sell settled shares at a price; proceeds are credited to
cash immediately (T+0).  Fails when the requested shares exceed the settled
shares by more than eps; the second error branch is the KeyError Python
raises when the ticker has no positions entry at all.  Returns the updated
account and the net proceeds. -/
def Account.sell (a : Account) (ticker : String) (shares price commission_rate : ℚ) :
    Except String (Account × ℚ) :=
  let available := a.get_available_shares ticker
  if shares > available + eps then
    .error "Insufficient shares"
  else if (a.positions.find? (fun e => e.fst == ticker)).isNone then
    .error "KeyError"
  else
    let gross_proceeds := shares * price
    let commission := gross_proceeds * commission_rate
    let net_proceeds := gross_proceeds - commission
    let updated := available - shares
    let updated := if updated < eps then 0 else updated
    .ok ({ a with positions := dictSet a.positions ticker updated,
                  cash := a.cash + net_proceeds }, net_proceeds)

/-- Account._calculate_t2_date for a current date cur: locate cur in the
trading calendar (list.index takes the first occurrence) and settle two
trading days later; fall back to cur + 2 when cur is not a trading day and
to cur + 4 when fewer than two trading days remain. -/
def calculate_t2_date (cur : ℕ) (trading_days : List ℕ) : ℕ :=
  match trading_days.findIdx? (fun d => d == cur) with
  | none => cur + 2
  | some current_idx =>
    if current_idx + 2 < trading_days.length then trading_days.getD (current_idx + 2) 0
    else cur + 4

/-- Account.buy: deduct the full amount from cash and enqueue the purchased
shares ((amount - fee) / nav) as a pending T+2 settlement.  Fails when the
amount exceeds cash by more than eps, or (inside _calculate_t2_date) when
no current date has been set.  Returns the updated account and the shares
purchased. -/
def Account.buy (a : Account) (ticker : String) (amount nav fee : ℚ)
    (trading_days : List ℕ) : Except String (Account × ℚ) :=
  if amount > a.cash + eps then
    .error "Insufficient cash"
  else
    match a.current_date with
    | none => .error "Current date not set"
    | some cur =>
      let net_amount := amount - fee
      let shares := net_amount / nav
      let settle_date := calculate_t2_date cur trading_days
      .ok ({ a with cash := a.cash - amount,
                    pending := a.pending ++ [⟨settle_date, ticker, shares⟩] }, shares)

/-- Account.get_total_value: cash plus settled and pending holdings valued
at the given prices (a missing price defaults to 0.0). -/
def Account.get_total_value (a : Account) (prices : List (String × ℚ)) : ℚ :=
  let positions_value := (a.positions.map (fun e => e.snd * dictGet prices e.fst)).sum
  let pending_value := (a.pending.map (fun p => p.shares * dictGet prices p.ticker)).sum
  a.cash + positions_value + pending_value

/-- Account.get_positions_value: settled plus pending holdings valued at the
given prices (a missing price defaults to 0.0). -/
def Account.get_positions_value (a : Account) (prices : List (String × ℚ)) : ℚ :=
  let settled_value := (a.positions.map (fun e => e.snd * dictGet prices e.fst)).sum
  let pending_value := (a.pending.map (fun p => p.shares * dictGet prices p.ticker)).sum
  settled_value + pending_value

/-- Fee configuration read from df.attrs by calculate_subscription_fee, with
the defaults used by attrs.get. -/
structure FeeAttrs where
  fee_limit_1 : ℚ := 500000
  fee_limit_2 : ℚ := 2000000
  fee_rate_tier_1 : ℚ := 15 / 1000
  fee_rate_tier_2 : ℚ := 1 / 100
  fee_fixed : ℚ := 1000

/-- calculate_subscription_fee (backtest.py): three-tier subscription fee. -/
def calculate_subscription_fee (amount : ℚ) (attrs : FeeAttrs) : ℚ :=
  if amount < attrs.fee_limit_1 then amount * attrs.fee_rate_tier_1
  else if amount < attrs.fee_limit_2 then amount * attrs.fee_rate_tier_2
  else attrs.fee_fixed

/-- Position sizing mode (config.py risk_mode). -/
inductive RiskMode
  | fixed
  | infinite
deriving DecidableEq

/-- BacktestConfig (config.py) restricted to the fields the engine reads. -/
structure BacktestConfig where
  initial_cash : ℚ := 300000
  liquidity_ratio : ℚ := 1 / 10
  buy_threshold : ℚ := 2 / 100
  commission_rate : ℚ := 3 / 10000
  risk_mode : RiskMode := .fixed
  use_ma5_liquidity : Bool := true
  risk_free_rate : ℚ := 2 / 100

/-- BacktestConfig.__post_init__ validation (risk_mode is valid by type). -/
def BacktestConfig.validate (c : BacktestConfig) : Bool :=
  decide (0 < c.initial_cash) && decide (0 ≤ c.liquidity_ratio) &&
  decide (c.liquidity_ratio ≤ 1) && decide (0 ≤ c.commission_rate) &&
  decide (0 ≤ c.risk_free_rate)

/-- One loaded daily bar, restricted to the fields the engine reads.
ma5_volume is precomputed by _load_multi_data (the 5-day rolling mean when
use_ma5_liquidity, otherwise a copy of volume).  daily_limit of none models
an unrestricted float('inf') limit. -/
structure Bar where
  close : ℚ
  volume : ℚ
  ma5_volume : ℚ
  nav : ℚ
  premium_rate : ℚ
  daily_limit : Option ℚ

/-- A strategy signal (src/strategy/base.py, which only declares this plain
record): action, ticker and target amount, none being float('inf'). -/
structure Signal where
  action : String
  ticker : String
  amount : Option ℚ

/-- One executed trade (the dict built by _execute_buy / _execute_sell). -/
structure TradeRecord where
  date : ℕ
  action : String
  ticker : String
  shares : ℚ
  price : ℚ
  amount : ℚ
  fee : ℚ
  net_amount : ℚ

/-- One daily performance record (run, step 4). -/
structure DailyRecord where
  date : ℕ
  total_assets : ℚ
  cash : ℚ
  positions_value : ℚ

/-- BacktestEngine._execute_sell: sell the whole settled position (or the
signalled notional if finite) at the close.  Returns the updated account
and the trade record, none when no trade executes. -/
def execute_sell (cfg : BacktestConfig) (a : Account) (signal : Signal) (row : Bar)
    (current_date : ℕ) : Except String (Account × Option TradeRecord) :=
  let ticker := signal.ticker
  let available_shares := a.get_available_shares ticker
  if available_shares ≤ 0 then .ok (a, none)
  else
    let shares_to_sell :=
      match signal.amount with
      | none => available_shares
      | some amt => min (amt / row.close) available_shares
    if shares_to_sell ≤ 0 then .ok (a, none)
    else
      let price := row.close
      match a.sell ticker shares_to_sell price cfg.commission_rate with
      | .error e => .error e
      | .ok (a', net_proceeds) =>
        let commission := shares_to_sell * price * cfg.commission_rate
        .ok (a', some { date := current_date, action := "sell", ticker := ticker,
                        shares := shares_to_sell, price := price,
                        amount := shares_to_sell * price, fee := commission,
                        net_amount := net_proceeds })

/-- BacktestEngine._execute_buy: cap the amount by the daily limit, the
liquidity cap, the cash cap (in fixed risk mode) and the signal amount,
skip when the result is nonpositive or cash is exhausted, cap once more by
available cash (the np.isinf branch of the source is the identity and is
omitted), then skip when the capped amount does not exceed its fee,
otherwise buy at NAV. -/
def execute_buy (cfg : BacktestConfig) (a : Account) (signal : Signal) (row : Bar)
    (df_attrs : FeeAttrs) (trading_days : List ℕ) (current_date : ℕ) :
    Except String (Account × Option TradeRecord) :=
  let ticker := signal.ticker
  let limit_cap := row.daily_limit
  let effective_volume :=
    if cfg.use_ma5_liquidity then min row.volume row.ma5_volume else row.volume
  let liquid_cap := effective_volume * cfg.liquidity_ratio * row.close
  let cash_cap : Option ℚ := if cfg.risk_mode = .fixed then some a.cash else none
  let signal_cap := signal.amount
  let max_amount := xmin (xmin (xmin limit_cap (some liquid_cap)) cash_cap) signal_cap
  if xnonpos max_amount || decide (a.cash ≤ 0) then .ok (a, none)
  else
    let max_amount : ℚ := (xmin max_amount (some a.cash)).getD 0
    let fee := calculate_subscription_fee max_amount df_attrs
    if max_amount ≤ fee then .ok (a, none)
    else
      let nav := row.nav
      match a.buy ticker max_amount nav fee trading_days with
      | .error e => .error e
      | .ok (a', shares) =>
        .ok (a', some { date := current_date, action := "buy", ticker := ticker,
                        shares := shares, price := nav, amount := max_amount,
                        fee := fee, net_amount := max_amount - fee })

/-- A buy candidate of the day loop (run, step 3): ticker, premium rate,
the data row and the fee attrs of the ticker. -/
structure Candidate where
  ticker : String
  premium_rate : ℚ
  row : Bar
  attrs : FeeAttrs

/-- Insert a candidate into a descending-sorted candidate list, after every
candidate whose premium rate is ≥ its own. -/
def insertDesc (c : Candidate) : List Candidate → List Candidate
  | [] => [c]
  | h :: t => if h.premium_rate < c.premium_rate then c :: h :: t else h :: insertDesc c t

/-- buy_candidates.sort(key=premium_rate, reverse=True): Python list.sort is
stable, so it is the unique stable descending sort, which the left fold of
insertDesc computes. -/
def sort_candidates (l : List Candidate) : List Candidate :=
  l.foldl (fun acc c => insertDesc c acc) []

/-- One loaded ticker bundle: fee attrs plus date-indexed bars. -/
structure TickerData where
  attrs : FeeAttrs
  bars : List (ℕ × Bar)

/-- Bar lookup: all_data[ticker].loc[timestamp], none when the ticker or the
date is missing. -/
def getBar (all_data : List (String × TickerData)) (ticker : String) (d : ℕ) : Option Bar :=
  match all_data.find? (fun e => e.fst == ticker) with
  | none => none
  | some e => (e.snd.bars.find? (fun b => b.fst == d)).map Prod.snd

/-- Step 2 of the day loop: for every ticker with a bar today and positive
settled shares, sell everything (the engine always sends an unbounded sell
signal). -/
def sellPhase (cfg : BacktestConfig) (all_data : List (String × TickerData)) (d : ℕ) :
    List String → Account → List TradeRecord → Except String (Account × List TradeRecord)
  | [], a, trades => .ok (a, trades)
  | ticker :: rest, a, trades =>
    match getBar all_data ticker d with
    | none => sellPhase cfg all_data d rest a trades
    | some row =>
      if a.get_available_shares ticker > 0 then
        match execute_sell cfg a ⟨"sell", ticker, none⟩ row d with
        | .error e => .error e
        | .ok (a', tr) => sellPhase cfg all_data d rest a' (trades ++ tr.toList)
      else sellPhase cfg all_data d rest a trades

/-- Step 3 candidate collection: tickers with a bar today whose premium rate
exceeds the buy threshold and whose daily limit is positive. -/
def collect_candidates (cfg : BacktestConfig) (all_data : List (String × TickerData))
    (tickers : List String) (d : ℕ) : List Candidate :=
  tickers.filterMap (fun ticker =>
    match all_data.find? (fun e => e.fst == ticker) with
    | none => none
    | some e =>
      match (e.snd.bars.find? (fun b => b.fst == d)).map Prod.snd with
      | none => none
      | some row =>
        if decide (row.premium_rate > cfg.buy_threshold) && xpos row.daily_limit then
          some ⟨ticker, row.premium_rate, row, e.snd.attrs⟩
        else none)

/-- Step 3 greedy loop: walk the sorted candidates, stopping as soon as cash
is exhausted; the engine always sends an unbounded buy signal. -/
def buyLoop (cfg : BacktestConfig) (trading_days : List ℕ) (d : ℕ) :
    List Candidate → Account → List TradeRecord → Except String (Account × List TradeRecord)
  | [], a, trades => .ok (a, trades)
  | c :: rest, a, trades =>
    if a.cash ≤ 0 then .ok (a, trades)
    else
      match execute_buy cfg a ⟨"buy", c.ticker, none⟩ c.row c.attrs trading_days d with
      | .error e => .error e
      | .ok (a', tr) => buyLoop cfg trading_days d rest a' (trades ++ tr.toList)

/-- Step 4 price collection: the close of every ticker with a bar today. -/
def day_prices (all_data : List (String × TickerData)) (tickers : List String)
    (d : ℕ) : List (String × ℚ) :=
  tickers.filterMap (fun t => (getBar all_data t d).map (fun row => (t, row.close)))

/-- One iteration of the main backtest loop (run, steps 1 to 4): settle,
sell phase, buy phase over sorted candidates, daily snapshot. -/
def dayStep (cfg : BacktestConfig) (all_data : List (String × TickerData))
    (tickers : List String) (trading_days : List ℕ) (d : ℕ)
    (a : Account) (trades : List TradeRecord) :
    Except String (Account × List TradeRecord × DailyRecord) :=
  let a := a.update_date d
  match sellPhase cfg all_data d tickers a trades with
  | .error e => .error e
  | .ok (a, trades) =>
    let candidates := sort_candidates (collect_candidates cfg all_data tickers d)
    match buyLoop cfg trading_days d candidates a trades with
    | .error e => .error e
    | .ok (a, trades) =>
      let prices := day_prices all_data tickers d
      .ok (a, trades,
        { date := d, total_assets := a.get_total_value prices, cash := a.cash,
          positions_value := a.get_positions_value prices })

/-- The outputs of a run: the daily performance series, the trade log and
the final account. -/
structure RunResult where
  daily_perf : List DailyRecord
  trade_logs : List TradeRecord
  account : Account

/-- The main loop of BacktestEngine.run over the remaining dates. -/
def runLoop (cfg : BacktestConfig) (all_data : List (String × TickerData))
    (tickers : List String) (trading_days : List ℕ) :
    List ℕ → Account → List TradeRecord → List DailyRecord → Except String RunResult
  | [], a, trades, daily => .ok ⟨daily, trades, a⟩
  | d :: rest, a, trades, daily =>
    match dayStep cfg all_data tickers trading_days d a trades with
    | .error e => .error e
    | .ok (a', trades', record) =>
      runLoop cfg all_data tickers trading_days rest a' trades' (daily ++ [record])

/-- BacktestEngine.run, starting from loaded data: trading_days is the
sorted, duplicate-free aligned date list computed by _load_multi_data, and
the account starts with the configured initial cash. -/
def run (cfg : BacktestConfig) (tickers : List String)
    (all_data : List (String × TickerData)) (trading_days : List ℕ) :
    Except String RunResult :=
  runLoop cfg all_data tickers trading_days trading_days
    ⟨cfg.initial_cash, [], [], none⟩ [] []

/-- The fully-capped purchase amount of the amended claim C1: the minimum of
the daily limit, the liquidity cap, the cash cap in fixed risk mode, the
signal amount, and (in both risk modes) the available cash. -/
def capped_amount (cfg : BacktestConfig) (a : Account) (signal : Signal) (row : Bar) : ℚ :=
  let effective_volume :=
    if cfg.use_ma5_liquidity then min row.volume row.ma5_volume else row.volume
  let liquid_cap := effective_volume * cfg.liquidity_ratio * row.close
  let cash_cap : Option ℚ := if cfg.risk_mode = .fixed then some a.cash else none
  (xmin (xmin (xmin (xmin row.daily_limit (some liquid_cap)) cash_cap) signal.amount)
    (some a.cash)).getD 0

/-- The outcome the amended claim C1 predicts for a buy candidate: execute
at the fully-capped amount exactly when it exceeds both its own fee and
zero, otherwise skip with no trade and no state change. -/
def buy_outcome (cfg : BacktestConfig) (a : Account) (signal : Signal) (row : Bar)
    (df_attrs : FeeAttrs) (trading_days : List ℕ) (current_date cur : ℕ) :
    Account × Option TradeRecord :=
  let m := capped_amount cfg a signal row
  let fee := calculate_subscription_fee m df_attrs
  if 0 < m ∧ fee < m then
    ({ a with cash := a.cash - m,
              pending := a.pending ++
                [⟨calculate_t2_date cur trading_days, signal.ticker, (m - fee) / row.nav⟩] },
     some ⟨current_date, "buy", signal.ticker, (m - fee) / row.nav, row.nav, m, fee, m - fee⟩)
  else (a, none)

/-- Remove every trace of one ticker from the account holdings (a
specification-side helper for claim C10). -/
def Account.erase_ticker (a : Account) (t : String) : Account :=
  { a with positions := a.positions.filter (fun e => !(e.fst == t)),
           pending := a.pending.filter (fun p => !(p.ticker == t)) }

/-- States of the ledger reachable by the operations as the engine and the
specification invoke them: a nonnegative opening cash balance, date
advances, successful sells of a nonnegative share count, and successful
buys whose fee does not exceed the amount and whose NAV is positive (the
engine skips any candidate whose capped amount does not exceed its fee). -/
inductive Reachable : Account → Prop
  | init (cash : ℚ) (h : 0 ≤ cash) : Reachable ⟨cash, [], [], none⟩
  | advance (a : Account) (d : ℕ) (ha : Reachable a) : Reachable (a.update_date d)
  | sell_step (a : Account) (t : String) (shares price rate : ℚ) (a' : Account) (net : ℚ)
      (ha : Reachable a) (hsh : 0 ≤ shares)
      (h : a.sell t shares price rate = .ok (a', net)) : Reachable a'
  | buy_step (a : Account) (t : String) (amount nav fee : ℚ) (cal : List ℕ)
      (a' : Account) (sh : ℚ) (ha : Reachable a) (hfee : fee ≤ amount) (hnav : 0 < nav)
      (h : a.buy t amount nav fee cal = .ok (a', sh)) : Reachable a'

/-- BacktestResult.annualized_return over the total_assets series: geometric
annualization at 252 trading days per year, 0 for an empty or one-day
series or a nonpositive start, and -1 when the equity ratio is nonpositive
(a fractional power of a nonpositive number is undefined). -/
noncomputable def annualized_return (total_assets : List ℝ) : ℝ :=
  if total_assets = [] then 0
  else
    let start_value := total_assets.headI
    if start_value ≤ 0 then 0
    else
      let n_days := total_assets.length
      if n_days ≤ 1 then 0
      else
        let total_return_factor := total_assets.getLastI / start_value
        if total_return_factor ≤ 0 then -1
        else total_return_factor ^ ((252 : ℝ) / n_days) - 1

/-- A flat unit-price bar used by the concrete instantiations below: close
and NAV of 1, volume of one million, no daily limit. -/
def sample_bar (prem : ℚ) : Bar := ⟨1, 1000000, 1000000, 1, prem, none⟩

/-- A single-instrument three-day table with a high premium on day 0. -/
def sample_data : List (String × TickerData) :=
  [("A", ⟨{}, [(0, sample_bar (1 / 10)), (1, sample_bar 0), (2, sample_bar 0)]⟩)]

/-- A configuration that passes validation with a commission rate of 2
(validation only requires a nonnegative rate). -/
def cex_cfg : BacktestConfig :=
  { initial_cash := 100000, liquidity_ratio := 1, buy_threshold := 2 / 100,
    commission_rate := 2, risk_mode := .fixed, use_ma5_liquidity := true,
    risk_free_rate := 0 }

/-- The same configuration with a zero commission rate. -/
def safe_cfg : BacktestConfig := { cex_cfg with commission_rate := 0 }

/-- Two instruments on one day: candidate A at a 5 percent premium listed
before candidate B at a 10 percent premium. -/
def greedy_data : List (String × TickerData) :=
  [("A", ⟨{}, [(0, sample_bar (5 / 100))]⟩), ("B", ⟨{}, [(0, sample_bar (10 / 100))]⟩)]

/-! ### Association list lemmas -/

lemma dictGet_cons (e : String × ℚ) (l : List (String × ℚ)) (k : String) :
    dictGet (e :: l) k = if e.fst = k then e.snd else dictGet l k := by
  by_cases h : e.fst = k <;> simp [dictGet, List.find?_cons, h]

lemma dictSet_cons (e : String × ℚ) (l : List (String × ℚ)) (k : String) (v : ℚ) :
    dictSet (e :: l) k v = if e.fst = k then (k, v) :: l else e :: dictSet l k v := by
  by_cases h : e.fst = k <;> simp [dictSet, h]

lemma dictGet_dictSet_self (l : List (String × ℚ)) (k : String) (v : ℚ) :
    dictGet (dictSet l k v) k = v := by
  induction l with
  | nil => simp [dictGet, dictSet, List.find?_cons]
  | cons e rest ih =>
    rw [dictSet_cons]
    by_cases h : e.fst = k
    · rw [if_pos h, dictGet_cons]; simp
    · rw [if_neg h, dictGet_cons, if_neg h, ih]

lemma dictGet_dictSet_ne (l : List (String × ℚ)) (k k' : String) (v : ℚ) (h : k' ≠ k) :
    dictGet (dictSet l k v) k' = dictGet l k' := by
  induction l with
  | nil => simp [dictGet, dictSet, List.find?_cons, Ne.symm h]
  | cons e rest ih =>
    rw [dictSet_cons]
    by_cases he : e.fst = k
    · rw [if_pos he]
      rw [dictGet_cons, dictGet_cons, if_neg (Ne.symm h), if_neg]
      rw [he]; exact Ne.symm h
    · rw [if_neg he, dictGet_cons, dictGet_cons, ih]

/-! ### Sum lemmas -/

lemma sum_map_filter_split {α : Type} (l : List α) (p : α → Bool) (f : α → ℚ) :
    ((l.filter p).map f).sum + ((l.filter (fun x => !(p x))).map f).sum = (l.map f).sum := by
  induction l with
  | nil => simp
  | cons a rest ih =>
    by_cases h : p a <;> simp [List.filter_cons, h] <;> ring_nf <;>
      rw [← ih] <;> ring

lemma sum_map_filter_of_zero {α : Type} (l : List α) (p : α → Bool) (f : α → ℚ)
    (h : ∀ x ∈ l, p x = false → f x = 0) :
    ((l.filter p).map f).sum = (l.map f).sum := by
  induction l with
  | nil => simp
  | cons a rest ih =>
    have hrest := ih (fun x hx => h x (List.mem_cons_of_mem a hx))
    by_cases ha : p a
    · simp [List.filter_cons, ha, hrest]
    · have : f a = 0 := h a (List.mem_cons_self a rest) (by simpa using ha)
      simp [List.filter_cons, ha, hrest, this]

/-- Maturing a list of pending settlements into the positions dict adds
exactly the per-ticker sum of the matured shares. -/
lemma dictGet_settle_foldl (l : List PendingSettlement) (pos : List (String × ℚ)) (t : String) :
    dictGet (l.foldl (fun pos p => dictSet pos p.ticker (dictGet pos p.ticker + p.shares)) pos) t
      = dictGet pos t + ((l.filter (fun p => p.ticker == t)).map PendingSettlement.shares).sum := by
  induction l generalizing pos with
  | nil => simp
  | cons p rest ih =>
    rw [List.foldl_cons, ih]
    by_cases h : p.ticker = t
    · subst h
      rw [dictGet_dictSet_self]
      simp [List.filter_cons]
      ring
    · rw [dictGet_dictSet_ne _ _ _ _ (Ne.symm h)]
      simp [List.filter_cons, h]

/-! ### Account.update_date characterization -/

lemma update_date_cash (a : Account) (d : ℕ) : (a.update_date d).cash = a.cash := rfl

lemma update_date_current (a : Account) (d : ℕ) :
    (a.update_date d).current_date = some d := rfl

lemma update_date_pending (a : Account) (d : ℕ) :
    (a.update_date d).pending = a.pending.filter (fun p => !(p.settle_date ≤ d : Bool)) := rfl

lemma update_date_available (a : Account) (d : ℕ) (t : String) :
    (a.update_date d).get_available_shares t
      = a.get_available_shares t
        + ((a.pending.filter (fun p => (p.ticker == t) && decide (p.settle_date ≤ d))).map
            PendingSettlement.shares).sum := by
  show dictGet _ t = _
  simp only [Account.update_date]
  rw [dictGet_settle_foldl, List.filter_filter]
  rfl

/-- Splitting the pending shares of a ticker by maturity. -/
lemma pending_split (l : List PendingSettlement) (t : String) (d : ℕ) :
    ((l.filter (fun p => (p.ticker == t) && decide (p.settle_date ≤ d))).map
        PendingSettlement.shares).sum
      + ((l.filter (fun p => (p.ticker == t) && !(p.settle_date ≤ d : Bool))).map
          PendingSettlement.shares).sum
      = ((l.filter (fun p => p.ticker == t)).map PendingSettlement.shares).sum := by
  induction l with
  | nil => simp
  | cons p rest ih =>
    by_cases ht : p.ticker = t <;> by_cases hd : p.settle_date ≤ d <;>
      simp [List.filter_cons, ht, hd] <;> linarith [ih]

/-- Account.update_date preserves the total (settled plus pending) shares of
every ticker: maturation only moves shares between the two pools. -/
lemma update_date_total_shares (a : Account) (d : ℕ) (t : String) :
    (a.update_date d).get_total_shares t = a.get_total_shares t := by
  rw [Account.get_total_shares, Account.get_total_shares, update_date_available]
  have hp : (a.update_date d).get_pending_shares t
      = ((a.pending.filter (fun p => (p.ticker == t) && !(p.settle_date ≤ d : Bool))).map
          PendingSettlement.shares).sum := by
    rw [Account.get_pending_shares, update_date_pending, List.filter_filter]
  rw [hp, Account.get_pending_shares]
  have := pending_split a.pending t d
  linarith

/-! ### Account.sell and Account.buy characterization -/

lemma sell_ok {a : Account} {t : String} {shares price rate : ℚ} {a' : Account} {net : ℚ}
    (h : a.sell t shares price rate = .ok (a', net)) :
    shares ≤ a.get_available_shares t + eps
  ∧ net = shares * price - shares * price * rate
  ∧ a'.cash = a.cash + net
  ∧ a'.pending = a.pending
  ∧ a'.current_date = a.current_date
  ∧ a'.positions = dictSet a.positions t
      (if a.get_available_shares t - shares < eps then 0
       else a.get_available_shares t - shares) := by
  rw [Account.sell] at h
  split at h
  · exact absurd h (by simp)
  · split at h
    · exact absurd h (by simp)
    · rename_i hgt hsome
      simp only [Except.ok.injEq, Prod.mk.injEq] at h
      obtain ⟨ha', hnet⟩ := h
      subst ha' hnet
      refine ⟨by linarith [not_lt.mp (by simpa using hgt)], by ring, by simp, rfl, rfl, rfl⟩

lemma buy_ok {a : Account} {t : String} {amount nav fee : ℚ} {cal : List ℕ}
    {a' : Account} {sh : ℚ} (h : a.buy t amount nav fee cal = .ok (a', sh)) :
    amount ≤ a.cash + eps
  ∧ sh = (amount - fee) / nav
  ∧ ∃ cur, a.current_date = some cur
      ∧ a' = { a with cash := a.cash - amount,
                      pending := a.pending ++
                        [⟨calculate_t2_date cur cal, t, (amount - fee) / nav⟩] } := by
  rw [Account.buy] at h
  split at h
  · exact absurd h (by simp)
  · rename_i hgt
    split at h
    · exact absurd h (by simp)
    · rename_i cur hcur
      simp only [Except.ok.injEq, Prod.mk.injEq] at h
      obtain ⟨ha', hsh⟩ := h
      subst ha' hsh
      exact ⟨by linarith [not_lt.mp (by simpa using hgt)], rfl, cur, hcur, rfl⟩

/-- Account.buy succeeds whenever the amount is within cash and a current
date is set. -/
lemma buy_succeeds {a : Account} {cur : ℕ} (hcur : a.current_date = some cur)
    {amount : ℚ} (hle : amount ≤ a.cash) (t : String) (nav fee : ℚ) (cal : List ℕ) :
    a.buy t amount nav fee cal
      = .ok ({ a with cash := a.cash - amount,
                      pending := a.pending ++
                        [⟨calculate_t2_date cur cal, t, (amount - fee) / nav⟩] },
             (amount - fee) / nav) := by
  rw [Account.buy, if_neg (by simp [eps]; nlinarith [eps]), hcur]

/-! ### findIdx? on duplicate-free calendars -/

lemma findIdx?_getD_of_nodup (cal : List ℕ) (hnd : cal.Nodup) (i : ℕ) (hi : i < cal.length) :
    cal.findIdx? (fun d => d == cal.getD i 0) = some i := by
  induction cal generalizing i with
  | nil => simp at hi
  | cons c t ih =>
    rcases List.nodup_cons.mp hnd with ⟨hc, ht⟩
    cases i with
    | zero => simp [List.findIdx?_cons]
    | succ j =>
      have hj : j < t.length := by simpa using hi
      have hmem : t.getD j 0 ∈ t := by
        rw [List.getD_eq_getElem _ _ hj]; exact List.getElem_mem hj
      have hne : (c == t.getD j 0) = false := by
        simp only [beq_eq_false_iff_ne, ne_eq]
        intro hEq
        rw [hEq] at hc; exact hc hmem
      rw [List.getD_cons_succ, List.findIdx?_cons, hne]
      simp only [Bool.false_eq_true, if_false, List.findIdx?_succ, ih ht j hj, Option.map_some']

/-! ### Claim C2: T+2 settlement dates and maturation -/

/-- C2: a buy on the trading day at index i of the duplicate-free aligned
calendar enqueues a pending entry whose settle date is exactly the trading
day at index i + 2 when that index exists, and a fixed four-calendar-day
offset from the current date otherwise; and a date advance removes from
pending exactly the entries whose settle date has been reached, merging
their shares into the settled position of their ticker. -/
theorem claim_c2_settlement (cal : List ℕ) (hnd : cal.Nodup) (i : ℕ) (hi : i < cal.length)
    (a : Account) (hcur : a.current_date = some (cal.getD i 0))
    (ticker : String) (amount nav fee : ℚ) (a' : Account) (sh : ℚ)
    (hbuy : a.buy ticker amount nav fee cal = .ok (a', sh)) :
    (i + 2 < cal.length →
      a'.pending = a.pending ++ [⟨cal.getD (i + 2) 0, ticker, (amount - fee) / nav⟩])
  ∧ (cal.length ≤ i + 2 →
      a'.pending = a.pending ++ [⟨cal.getD i 0 + 4, ticker, (amount - fee) / nav⟩])
  ∧ (∀ (b : Account) (d : ℕ),
      (b.update_date d).pending = b.pending.filter (fun p => !(p.settle_date ≤ d : Bool))
    ∧ ∀ t, (b.update_date d).get_available_shares t
        = b.get_available_shares t
          + ((b.pending.filter (fun p => (p.ticker == t) && decide (p.settle_date ≤ d))).map
              PendingSettlement.shares).sum) := by
  obtain ⟨-, -, cur, hcur', ha'⟩ := buy_ok hbuy
  rw [hcur] at hcur'
  have hcc : cur = cal.getD i 0 := by injection hcur' with h; exact h.symm
  subst hcc
  have ht2 : calculate_t2_date (cal.getD i 0) cal
      = if i + 2 < cal.length then cal.getD (i + 2) 0 else cal.getD i 0 + 4 := by
    rw [calculate_t2_date, findIdx?_getD_of_nodup cal hnd i hi]
  refine ⟨fun h2 => ?_, fun h2 => ?_,
    fun b d => ⟨update_date_pending b d, fun t => update_date_available b d t⟩⟩
  · rw [ha', ht2, if_pos h2]
  · rw [ha', ht2, if_neg (not_lt.mpr h2)]

/-- Witness for claim C2: a buy of 100 on day index 0 of the calendar
0, 1, 2, 3 settles at the day with index 2. -/
theorem claim_c2_settlement_witness :
    ((0 : ℕ) + 2 < ([0, 1, 2, 3] : List ℕ).length →
      (⟨900, [], [⟨2, "A", ((100 : ℚ) - 0) / 1⟩], some 0⟩ : Account).pending
        = ([] : List PendingSettlement)
            ++ [⟨([0, 1, 2, 3] : List ℕ).getD (0 + 2) 0, "A", ((100 : ℚ) - 0) / 1⟩])
  ∧ (([0, 1, 2, 3] : List ℕ).length ≤ 0 + 2 →
      (⟨900, [], [⟨2, "A", ((100 : ℚ) - 0) / 1⟩], some 0⟩ : Account).pending
        = ([] : List PendingSettlement)
            ++ [⟨([0, 1, 2, 3] : List ℕ).getD 0 0 + 4, "A", ((100 : ℚ) - 0) / 1⟩])
  ∧ (∀ (b : Account) (d : ℕ),
      (b.update_date d).pending = b.pending.filter (fun p => !(p.settle_date ≤ d : Bool))
    ∧ ∀ t, (b.update_date d).get_available_shares t
        = b.get_available_shares t
          + ((b.pending.filter (fun p => (p.ticker == t) && decide (p.settle_date ≤ d))).map
              PendingSettlement.shares).sum) := by
  have hbuy : (⟨1000, [], [], some 0⟩ : Account).buy "A" 100 1 0 [0, 1, 2, 3]
      = .ok (⟨900, [], [⟨2, "A", ((100 : ℚ) - 0) / 1⟩], some 0⟩, ((100 : ℚ) - 0) / 1) := by
    norm_num [Account.buy, calculate_t2_date, eps, List.findIdx?_cons]
  exact claim_c2_settlement [0, 1, 2, 3] (by decide) 0 (by decide)
    ⟨1000, [], [], some 0⟩ rfl "A" 100 1 0 _ _ hbuy

/-! ### Claim C3: conservation of the total claim -/

/-- Reachable accounts have nonnegative settled positions and nonnegative
pending entries. -/
lemma reachable_nonneg {a : Account} (ha : Reachable a) :
    (∀ t, 0 ≤ a.get_available_shares t) ∧ (∀ p ∈ a.pending, 0 ≤ p.shares) := by
  induction ha with
  | init c h =>
    refine ⟨fun t => ?_, by simp⟩
    simp [Account.get_available_shares, dictGet]
  | advance a d ha ih =>
    obtain ⟨ihpos, ihpend⟩ := ih
    constructor
    · intro t
      rw [update_date_available]
      have hsum : 0 ≤ ((a.pending.filter
          (fun p => (p.ticker == t) && decide (p.settle_date ≤ d))).map
            PendingSettlement.shares).sum := by
        apply List.sum_nonneg
        intro x hx
        obtain ⟨p, hp, rfl⟩ := List.mem_map.mp hx
        exact ihpend p (List.mem_filter.mp hp).1
      linarith [ihpos t]
    · intro p hp
      rw [update_date_pending] at hp
      exact ihpend p (List.mem_filter.mp hp).1
  | sell_step a t shares price rate a' net ha hsh h ih =>
    obtain ⟨ihpos, ihpend⟩ := ih
    obtain ⟨hle, hnet, hcash, hpend, hdate, hpos⟩ := sell_ok h
    constructor
    · intro t'
      rw [Account.get_available_shares, hpos]
      by_cases het : t' = t
      · subst het
        rw [dictGet_dictSet_self]
        split
        · exact le_refl 0
        · rename_i hclamp
          have : eps ≤ a.get_available_shares t' - shares := not_lt.mp hclamp
          have heps : 0 < eps := by norm_num [eps]
          linarith
      · rw [dictGet_dictSet_ne _ _ _ _ het]
        exact ihpos t'
    · intro p hp
      rw [hpend] at hp
      exact ihpend p hp
  | buy_step a t amount nav fee cal a' sh ha hfee hnav h ih =>
    obtain ⟨ihpos, ihpend⟩ := ih
    obtain ⟨hle, hsh, cur, hcur, ha'⟩ := buy_ok h
    subst ha'
    constructor
    · intro t'
      exact ihpos t'
    · intro p hp
      rcases List.mem_append.mp hp with hp | hp
      · exact ihpend p hp
      · have : p = ⟨calculate_t2_date cur cal, t, (amount - fee) / nav⟩ := by simpa using hp
        subst this
        exact div_nonneg (by linarith) (le_of_lt hnav)

/-- C3 (amended): on every reachable ledger state, a date advance leaves
the total claim (settled plus pending shares) of every instrument
unchanged, a buy whose fee is at most its amount and whose NAV is positive
never decreases it, and a sell of a nonnegative share count never increases
it: the total claim decreases only through sells. -/
theorem claim_c3_total_claim (a : Account) (ha : Reachable a) (t : String) :
    (∀ d, (a.update_date d).get_total_shares t = a.get_total_shares t)
  ∧ (∀ (tb : String) (amount nav fee : ℚ) (cal : List ℕ) (a' : Account) (sh : ℚ),
      fee ≤ amount → 0 < nav → a.buy tb amount nav fee cal = .ok (a', sh) →
      a.get_total_shares t ≤ a'.get_total_shares t)
  ∧ (∀ (ts : String) (shares price rate : ℚ) (a' : Account) (net : ℚ),
      0 ≤ shares → a.sell ts shares price rate = .ok (a', net) →
      a'.get_total_shares t ≤ a.get_total_shares t) := by
  refine ⟨fun d => update_date_total_shares a d t, ?_, ?_⟩
  · intro tb amount nav fee cal a' sh hfee hnav h
    obtain ⟨hle, hsh, cur, hcur, ha'⟩ := buy_ok h
    subst ha'
    rw [Account.get_total_shares, Account.get_total_shares]
    have hav : Account.get_available_shares
        { a with cash := a.cash - amount,
                 pending := a.pending ++
                   [⟨calculate_t2_date cur cal, tb, (amount - fee) / nav⟩] } t
        = a.get_available_shares t := rfl
    rw [hav]
    have hpend : Account.get_pending_shares
        { a with cash := a.cash - amount,
                 pending := a.pending ++
                   [⟨calculate_t2_date cur cal, tb, (amount - fee) / nav⟩] } t
        = a.get_pending_shares t
          + (([(⟨calculate_t2_date cur cal, tb, (amount - fee) / nav⟩ : PendingSettlement)].filter
              (fun p => p.ticker == t)).map PendingSettlement.shares).sum := by
      rw [Account.get_pending_shares, Account.get_pending_shares]
      simp [List.filter_append]
    rw [hpend]
    have : 0 ≤ (([(⟨calculate_t2_date cur cal, tb, (amount - fee) / nav⟩ : PendingSettlement)].filter
        (fun p => p.ticker == t)).map PendingSettlement.shares).sum := by
      apply List.sum_nonneg
      intro x hx
      obtain ⟨p, hp, rfl⟩ := List.mem_map.mp hx
      have hmem := (List.mem_filter.mp hp).1
      have : p = ⟨calculate_t2_date cur cal, tb, (amount - fee) / nav⟩ := by simpa using hmem
      subst this
      exact div_nonneg (by linarith) (le_of_lt hnav)
    linarith
  · intro ts shares price rate a' net hsh h
    obtain ⟨hle, hnet, hcash, hpend, hdate, hpos⟩ := sell_ok h
    rw [Account.get_total_shares, Account.get_total_shares]
    have hpendEq : a'.get_pending_shares t = a.get_pending_shares t := by
      rw [Account.get_pending_shares, Account.get_pending_shares, hpend]
    rw [hpendEq]
    have hav : a'.get_available_shares t ≤ a.get_available_shares t := by
      rw [Account.get_available_shares, hpos]
      by_cases het : t = ts
      · subst het
        rw [dictGet_dictSet_self]
        split
        · exact (reachable_nonneg ha).1 t
        · rw [Account.get_available_shares]; linarith
      · rw [dictGet_dictSet_ne _ _ _ _ het]
        exact le_refl _
    linarith

/-- Witness for claim C3: a reachable account holding 100 settled shares
after an opening deposit, a buy and two date advances; the sell conjunct is
applied to a full liquidation. -/
theorem claim_c3_total_claim_witness :
    (⟨1000, [("A", 0)], [], some 2⟩ : Account).get_total_shares "A"
      ≤ (⟨900, [("A", (100 : ℚ))], [], some 2⟩ : Account).get_total_shares "A" := by
  have h0 : Reachable ⟨1000, [], [], none⟩ := Reachable.init 1000 (by norm_num)
  have h1 : Reachable ⟨1000, [], [], some 0⟩ := by
    have := Reachable.advance _ 0 h0
    simpa [Account.update_date] using this
  have hbuy : (⟨1000, [], [], some 0⟩ : Account).buy "A" 100 1 0 []
      = .ok (⟨900, [], [⟨2, "A", 100⟩], some 0⟩, 100) := by
    norm_num [Account.buy, calculate_t2_date, eps, List.findIdx?_nil]
  have h2 : Reachable ⟨900, [], [⟨2, "A", 100⟩], some 0⟩ :=
    Reachable.buy_step _ "A" 100 1 0 [] _ 100 h1 (by norm_num) (by norm_num) hbuy
  have h3 : Reachable ⟨900, [("A", (100 : ℚ))], [], some 2⟩ := by
    have := Reachable.advance _ 2 h2
    simpa [Account.update_date, dictSet, dictGet] using this
  have hsell : (⟨900, [("A", (100 : ℚ))], [], some 2⟩ : Account).sell "A" 100 1 0
      = .ok (⟨1000, [("A", 0)], [], some 2⟩, 100) := by
    norm_num [Account.sell, Account.get_available_shares, dictGet, dictSet, eps]
  exact (claim_c3_total_claim _ h3 "A").2.2 "A" 100 1 0 _ _ (by norm_num) hsell

/-- C3 counterexample: as literally stated over arbitrary ledger operation
sequences the claim fails, since a buy whose fee exceeds its amount
strictly decreases the total claim of an instrument without any sell: a buy
of amount 0 with fee 1000 at NAV 1 takes the total claim of A from 0 to
-1000. -/
theorem claim_c3_total_claim_cex :
    (Except.map (fun p => (Prod.fst p).get_total_shares "A")
        ((⟨1000, [], [], some 0⟩ : Account).buy "A" 0 1 1000 []))
      = .ok (-1000)
  ∧ (⟨1000, [], [], some 0⟩ : Account).get_total_shares "A" = 0
  ∧ ¬ ((0 : ℚ) ≤ -1000) := by
  norm_num [Account.buy, Account.get_total_shares, Account.get_available_shares,
    Account.get_pending_shares, calculate_t2_date, dictGet, eps, List.findIdx?_nil,
    Except.map]

/-! ### Claim C7: the three-tier fee schedule -/

/-- C7: the subscription fee is the three-tier schedule (rate one below the
first threshold, rate two from there to the second threshold, flat fixed
fee at or above it, for ordered thresholds), and at the default schedule
fee(499999) = 499999 x 1.5 percent, fee(500000) = 500000 x 1 percent and
fee(2000000) = 1000. -/
theorem claim_c7_fee_schedule :
    (∀ (attrs : FeeAttrs) (amount : ℚ), amount < attrs.fee_limit_1 →
      calculate_subscription_fee amount attrs = amount * attrs.fee_rate_tier_1)
  ∧ (∀ (attrs : FeeAttrs) (amount : ℚ), attrs.fee_limit_1 ≤ amount →
      amount < attrs.fee_limit_2 →
      calculate_subscription_fee amount attrs = amount * attrs.fee_rate_tier_2)
  ∧ (∀ (attrs : FeeAttrs) (amount : ℚ), attrs.fee_limit_1 ≤ attrs.fee_limit_2 →
      attrs.fee_limit_2 ≤ amount →
      calculate_subscription_fee amount attrs = attrs.fee_fixed)
  ∧ calculate_subscription_fee 499999 {} = 499999 * (15 / 1000)
  ∧ calculate_subscription_fee 500000 {} = 500000 * (1 / 100)
  ∧ calculate_subscription_fee 2000000 {} = 1000 := by
  refine ⟨?_, ?_, ?_, by norm_num [calculate_subscription_fee],
    by norm_num [calculate_subscription_fee], by norm_num [calculate_subscription_fee]⟩
  · intro attrs amount h
    rw [calculate_subscription_fee, if_pos h]
  · intro attrs amount h1 h2
    rw [calculate_subscription_fee, if_neg (not_lt.mpr h1), if_pos h2]
  · intro attrs amount h0 h2
    rw [calculate_subscription_fee, if_neg (not_lt.mpr (le_trans h0 h2)),
      if_neg (not_lt.mpr h2)]

/-- Witness for claim C7 at concrete amounts in each tier. -/
theorem claim_c7_fee_schedule_witness :
    calculate_subscription_fee 100 {} = 100 * (({} : FeeAttrs)).fee_rate_tier_1
  ∧ calculate_subscription_fee 600000 {} = 600000 * (({} : FeeAttrs)).fee_rate_tier_2
  ∧ calculate_subscription_fee 3000000 {} = (({} : FeeAttrs)).fee_fixed :=
  ⟨claim_c7_fee_schedule.1 {} 100 (by norm_num),
   claim_c7_fee_schedule.2.1 {} 600000 (by norm_num) (by norm_num),
   claim_c7_fee_schedule.2.2.1 {} 3000000 (by norm_num) (by norm_num)⟩

/-! ### Claim C8: annualized return -/

/-- C8: on every nonempty equity series with a positive first value, the
annualized return is the geometric formula (ratio to the power 252 over the
number of days, minus one), except that a nonpositive equity ratio yields
-1 instead of a domain error; the one-day branch of the code (which
returns 0) agrees with the formula since the ratio is then 1. -/
theorem claim_c8_annualized_return (total_assets : List ℝ)
    (hne : total_assets ≠ []) (hpos : 0 < total_assets.headI) :
    annualized_return total_assets
      = if total_assets.getLastI / total_assets.headI ≤ 0 then -1
        else (total_assets.getLastI / total_assets.headI)
            ^ ((252 : ℝ) / total_assets.length) - 1 := by
  simp only [annualized_return, if_neg hne, if_neg (not_le.mpr hpos)]
  by_cases hn : total_assets.length ≤ 1
  · obtain ⟨x, rfl⟩ : ∃ x, total_assets = [x] := by
      match total_assets, hne with
      | [x], _ => exact ⟨x, rfl⟩
      | x :: y :: t, _ => simp at hn
    rw [if_pos hn]
    have hx : ([x] : List ℝ).headI = x := rfl
    have hx' : ([x] : List ℝ).getLastI = x := rfl
    rw [hx, hx']
    have hpx : (0 : ℝ) < x := by rw [hx] at hpos; exact hpos
    have hxx : x / x = 1 := div_self (ne_of_gt hpx)
    rw [hxx, if_neg (by norm_num), Real.one_rpow]
    norm_num
  · rw [if_neg hn]

/-- Witness for claim C8 on a flat three-day series. -/
theorem claim_c8_annualized_return_witness :
    annualized_return [100, 100, 100] = 0 := by
  have h := claim_c8_annualized_return [100, 100, 100] (by simp)
    (by show (0 : ℝ) < 100; norm_num)
  rw [h]
  have h1 : ([100, 100, 100] : List ℝ).getLastI = 100 := rfl
  have h2 : ([100, 100, 100] : List ℝ).headI = 100 := rfl
  rw [h1, h2]
  have h3 : (100 : ℝ) / 100 = 1 := by norm_num
  rw [h3, if_neg (by norm_num), Real.one_rpow]
  norm_num

/-! ### Claim C9: the snapshot accounting identity -/

/-- Total account value is exactly cash plus positions value. -/
lemma total_value_eq_cash_add_positions (a : Account) (prices : List (String × ℚ)) :
    a.get_total_value prices = a.cash + a.get_positions_value prices := by
  rw [Account.get_total_value, Account.get_positions_value]; ring

/-- Every snapshot a day step produces satisfies the accounting identity. -/
lemma dayStep_record {cfg : BacktestConfig} {all_data : List (String × TickerData)}
    {tickers : List String} {trading_days : List ℕ} {d : ℕ} {a : Account}
    {trades : List TradeRecord} {a' : Account} {trades' : List TradeRecord}
    {record : DailyRecord}
    (h : dayStep cfg all_data tickers trading_days d a trades = .ok (a', trades', record)) :
    record.total_assets = record.cash + record.positions_value := by
  simp only [dayStep] at h
  split at h
  · exact absurd h (by simp)
  · split at h
    · exact absurd h (by simp)
    · simp only [Except.ok.injEq, Prod.mk.injEq] at h
      obtain ⟨-, -, h3⟩ := h
      subst h3
      exact total_value_eq_cash_add_positions _ _

/-- The run loop only appends snapshots satisfying the identity. -/
lemma runLoop_records {cfg : BacktestConfig} {all_data : List (String × TickerData)}
    {tickers : List String} {trading_days : List ℕ} :
    ∀ (ds : List ℕ) (a : Account) (trades : List TradeRecord)
      (daily : List DailyRecord) (r : RunResult),
      runLoop cfg all_data tickers trading_days ds a trades daily = .ok r →
      (∀ record ∈ daily, record.total_assets = record.cash + record.positions_value) →
      ∀ record ∈ r.daily_perf,
        record.total_assets = record.cash + record.positions_value := by
  intro ds
  induction ds with
  | nil =>
    intro a trades daily r h hd
    rw [runLoop] at h
    simp only [Except.ok.injEq] at h
    subst h
    exact hd
  | cons d rest ih =>
    intro a trades daily r h hd
    rw [runLoop] at h
    split at h
    · exact absurd h (by simp)
    · rename_i a1 trades1 record1 heq
      refine ih _ _ _ _ h ?_
      intro rec1 hrec
      rcases List.mem_append.mp hrec with hrec | hrec
      · exact hd rec1 hrec
      · have heq1 : rec1 = record1 := by simpa using hrec
        subst heq1
        exact dayStep_record heq

/-- C9: every daily snapshot a run records satisfies
total assets = cash + positions value exactly. -/
theorem claim_c9_snapshot (cfg : BacktestConfig) (tickers : List String)
    (all_data : List (String × TickerData)) (trading_days : List ℕ) (r : RunResult)
    (h : run cfg tickers all_data trading_days = .ok r) :
    ∀ record ∈ r.daily_perf,
      record.total_assets = record.cash + record.positions_value :=
  runLoop_records trading_days _ _ _ _ h (by simp)

/-- One-day run of the sample data under the zero-commission configuration,
shared by several witnesses below: all cash is subscribed on day 0 and the
purchased shares are still pending at the snapshot. -/
lemma run_safe_eval : run safe_cfg ["A"] sample_data [0]
    = .ok ⟨[⟨0, 98500, 0, 98500⟩], [⟨0, "buy", "A", 98500, 1, 100000, 1500, 98500⟩],
           ⟨0, [], [⟨4, "A", 98500⟩], some 0⟩⟩ := by
  norm_num [run, runLoop, dayStep, sellPhase, buyLoop, collect_candidates, sort_candidates,
    insertDesc, day_prices, getBar, execute_sell, execute_buy, Account.update_date,
    Account.sell, Account.buy, Account.get_available_shares, Account.get_total_value,
    Account.get_positions_value, calculate_subscription_fee, calculate_t2_date,
    dictGet, dictSet, xmin, xnonpos, xpos, eps, sample_data, safe_cfg, cex_cfg, sample_bar,
    List.filterMap_cons, List.filterMap_nil, List.findIdx?_cons]

/-- Witness for claim C9 on the one-day sample run. -/
theorem claim_c9_snapshot_witness :
    (⟨0, 98500, 0, 98500⟩ : DailyRecord).total_assets
      = (⟨0, 98500, 0, 98500⟩ : DailyRecord).cash
        + (⟨0, 98500, 0, 98500⟩ : DailyRecord).positions_value :=
  claim_c9_snapshot safe_cfg ["A"] sample_data [0] _ run_safe_eval
    ⟨0, 98500, 0, 98500⟩ (by simp)

/-! ### Claim C10: instruments without a quoted price -/

/-- C10: an instrument without an entry in the price map is valued at 0 (the
missing price defaults to 0), so erasing all its holdings changes neither
the total value nor the positions value of the account. -/
theorem claim_c10_missing_price (a : Account) (prices : List (String × ℚ)) (t : String)
    (hmiss : prices.find? (fun e => e.fst == t) = none) :
    dictGet prices t = 0
  ∧ a.get_total_value prices = (a.erase_ticker t).get_total_value prices
  ∧ a.get_positions_value prices = (a.erase_ticker t).get_positions_value prices := by
  have h0 : dictGet prices t = 0 := by rw [dictGet, hmiss]
  have hpos : ((a.positions.filter (fun e => !(e.fst == t))).map
      (fun e => e.snd * dictGet prices e.fst)).sum
      = (a.positions.map (fun e => e.snd * dictGet prices e.fst)).sum := by
    apply sum_map_filter_of_zero
    intro x hx hfx
    have hxt : x.fst = t := by simpa using hfx
    rw [hxt, h0, mul_zero]
  have hpend : ((a.pending.filter (fun p => !(p.ticker == t))).map
      (fun p => p.shares * dictGet prices p.ticker)).sum
      = (a.pending.map (fun p => p.shares * dictGet prices p.ticker)).sum := by
    apply sum_map_filter_of_zero
    intro x hx hfx
    have hxt : x.ticker = t := by simpa using hfx
    rw [hxt, h0, mul_zero]
  refine ⟨h0, ?_, ?_⟩
  · rw [Account.get_total_value, Account.get_total_value, Account.erase_ticker]
    simp only
    rw [hpos, hpend]
  · rw [Account.get_positions_value, Account.get_positions_value, Account.erase_ticker]
    simp only
    rw [hpos, hpend]

/-- Witness for claim C10: shares of B are worthless when only A is
priced. -/
theorem claim_c10_missing_price_witness :
    dictGet [("A", 7)] "B" = 0
  ∧ (⟨5, [("B", 3)], [⟨1, "B", 2⟩], none⟩ : Account).get_total_value [("A", 7)]
      = ((⟨5, [("B", 3)], [⟨1, "B", 2⟩], none⟩ : Account).erase_ticker "B").get_total_value
          [("A", 7)]
  ∧ (⟨5, [("B", 3)], [⟨1, "B", 2⟩], none⟩ : Account).get_positions_value [("A", 7)]
      = ((⟨5, [("B", 3)], [⟨1, "B", 2⟩], none⟩ : Account).erase_ticker "B").get_positions_value
          [("A", 7)] :=
  claim_c10_missing_price _ [("A", 7)] "B" (by simp)

/-! ### Claim C1: the buy cap and the skip condition -/

lemma xmin_some_getD (x : Option ℚ) (c : ℚ) :
    (xmin x (some c)).getD 0 = match x with | none => c | some q => min q c := by
  cases x <;> rfl

lemma xmin_getD_le (x : Option ℚ) (c : ℚ) : (xmin x (some c)).getD 0 ≤ c := by
  cases x with
  | none => exact le_refl c
  | some q => exact min_le_right q c

/-- The fully-capped amount never exceeds available cash. -/
lemma capped_amount_le_cash (cfg : BacktestConfig) (a : Account) (signal : Signal)
    (row : Bar) : capped_amount cfg a signal row ≤ a.cash := by
  rw [capped_amount]
  exact xmin_getD_le _ _

/-- The engine buy step realises exactly the predicted outcome: it executes
at the fully-capped amount when that amount exceeds its fee and zero, and
skips with no state change otherwise. -/
lemma execute_buy_eq_outcome (cfg : BacktestConfig) (a : Account) (signal : Signal)
    (row : Bar) (df_attrs : FeeAttrs) (trading_days : List ℕ) (current_date cur : ℕ)
    (hcur : a.current_date = some cur) :
    execute_buy cfg a signal row df_attrs trading_days current_date
      = .ok (buy_outcome cfg a signal row df_attrs trading_days current_date cur) := by
  simp only [execute_buy, buy_outcome, capped_amount]
  set L := (if cfg.use_ma5_liquidity then min row.volume row.ma5_volume else row.volume)
    * cfg.liquidity_ratio * row.close with hL
  set CC := (if cfg.risk_mode = RiskMode.fixed then some a.cash else none) with hCC
  set P := xmin (xmin (xmin row.daily_limit (some L)) CC) signal.amount with hP
  set m := (xmin P (some a.cash)).getD 0 with hm
  by_cases h1 : (xnonpos P || decide (a.cash ≤ 0)) = true
  · rw [if_pos h1]
    have hm0 : m ≤ 0 := by
      rcases Bool.or_eq_true _ _ |>.mp h1 with h | h
      · cases hPc : P with
        | none => rw [hPc] at h; simp [xnonpos] at h
        | some q =>
          have hq : q ≤ 0 := by rw [hPc] at h; simpa [xnonpos] using h
          rw [hm, hPc, xmin_some_getD]
          exact le_trans (min_le_left q a.cash) hq
      · have hc : a.cash ≤ 0 := of_decide_eq_true h
        rw [hm, xmin_some_getD]
        cases P with
        | none => exact hc
        | some q => exact le_trans (min_le_right q a.cash) hc
    rw [if_neg (fun hc => absurd hc.1 (not_lt.mpr hm0))]
  · rw [if_neg h1]
    have h1' : ¬ xnonpos P = true ∧ ¬ a.cash ≤ 0 := by
      simpa [Bool.or_eq_true, not_or, decide_eq_true_eq] using h1
    have hcash : 0 < a.cash := not_le.mp h1'.2
    have hmpos : 0 < m := by
      cases hPc : P with
      | none => rw [hm, hPc, xmin_some_getD]; exact hcash
      | some q =>
        have hq : 0 < q := by
          have h3 := h1'.1
          rw [hPc] at h3
          simp only [xnonpos, decide_eq_true_eq] at h3
          exact not_le.mp h3
        rw [hm, hPc, xmin_some_getD]
        exact lt_min hq hcash
    have hmle : m ≤ a.cash := by rw [hm]; exact xmin_getD_le _ _
    by_cases h2 : m ≤ calculate_subscription_fee m df_attrs
    · rw [if_pos h2, if_neg (fun hc => absurd hc.2 (not_lt.mpr h2))]
    · rw [if_neg h2, buy_succeeds hcur hmle, if_pos ⟨hmpos, not_le.mp h2⟩]

/-- C1 (amended): every buy candidate processed in the day loop executes at
the amount capped by the daily limit, the liquidity cap, the cash cap in
fixed risk mode, the signal amount, and additionally in both capital modes
by the remaining cash; the candidate is skipped with no trade and no state
change exactly when that fully-capped amount is nonpositive or does not
exceed its own fee. -/
theorem claim_c1_buy_cap (cfg : BacktestConfig) (a : Account) (signal : Signal)
    (row : Bar) (df_attrs : FeeAttrs) (trading_days : List ℕ) (current_date cur : ℕ)
    (hcur : a.current_date = some cur) :
    execute_buy cfg a signal row df_attrs trading_days current_date
      = .ok (buy_outcome cfg a signal row df_attrs trading_days current_date cur) :=
  execute_buy_eq_outcome cfg a signal row df_attrs trading_days current_date cur hcur

/-- Witness for the amended claim C1: with one hundred thousand in cash and
ample liquidity, the candidate is bought at the full cash amount. -/
theorem claim_c1_buy_cap_witness :
    execute_buy cex_cfg ⟨100000, [], [], some 0⟩ ⟨"buy", "A", none⟩ (sample_bar (1 / 10))
        {} [] 0
      = .ok (⟨0, [], [⟨2, "A", 98500⟩], some 0⟩,
             some ⟨0, "buy", "A", 98500, 1, 100000, 1500, 98500⟩) := by
  rw [claim_c1_buy_cap cex_cfg ⟨100000, [], [], some 0⟩ ⟨"buy", "A", none⟩
    (sample_bar (1 / 10)) {} [] 0 0 rfl]
  norm_num [buy_outcome, capped_amount, calculate_subscription_fee, calculate_t2_date,
    xmin, cex_cfg, sample_bar, List.findIdx?_nil]

/-- C1 counterexample: in unbounded capital mode the claim predicts an
executed amount equal to the minimum of the daily limit, the liquidity cap
and the signal amount (one million here), but the engine additionally caps
by the remaining cash of 100 and buys only 100. -/
theorem claim_c1_buy_cap_cex :
    (Except.map (fun p => Option.map TradeRecord.amount p.2)
        (execute_buy
          { initial_cash := 100, liquidity_ratio := 1, buy_threshold := 2 / 100,
            commission_rate := 3 / 10000, risk_mode := .infinite,
            use_ma5_liquidity := true, risk_free_rate := 0 }
          ⟨100, [], [], some 0⟩ ⟨"buy", "A", none⟩ (sample_bar (1 / 10)) {} [] 0))
      = .ok (some 100)
  ∧ xmin (xmin (sample_bar (1 / 10)).daily_limit
        (some (min (sample_bar (1 / 10)).volume (sample_bar (1 / 10)).ma5_volume * 1
          * (sample_bar (1 / 10)).close)))
      (⟨"buy", "A", none⟩ : Signal).amount = some 1000000
  ∧ ((100 : ℚ) ≠ 1000000) := by
  refine ⟨?_, by norm_num [xmin, sample_bar], by norm_num⟩
  have hrm : (if RiskMode.infinite = RiskMode.fixed then some (100 : ℚ) else none)
      = none := rfl
  norm_num [execute_buy, Account.buy, calculate_subscription_fee, calculate_t2_date,
    xmin, xnonpos, eps, sample_bar, List.findIdx?_nil, Except.map, hrm]

/-! ### Claims C4 and C5: engine-level cash safety and absence of ledger
failures -/

/-- Account.sell succeeds whenever the requested shares are within the
settled shares and the ticker has a positions entry. -/
lemma sell_succeeds {a : Account} {t : String} {shares : ℚ}
    (hle : shares ≤ a.get_available_shares t)
    (hkey : (a.positions.find? (fun e => e.fst == t)).isNone = false)
    (price rate : ℚ) :
    a.sell t shares price rate
      = .ok ({ a with positions := dictSet a.positions t
                        (if a.get_available_shares t - shares < eps then 0
                         else a.get_available_shares t - shares),
                      cash := a.cash + (shares * price - shares * price * rate) },
             shares * price - shares * price * rate) := by
  rw [Account.sell]
  have hepspos : (0 : ℚ) < eps := by norm_num [eps]
  rw [if_neg (by push_neg; linarith)]
  rw [if_neg (by rw [hkey]; exact Bool.false_ne_true)]

/-- The engine sell step never fails, preserves the pending queue and the
current date, and, for a nonnegative close and a commission rate between
zero and one, never decreases cash. -/
lemma execute_sell_spec (cfg : BacktestConfig) (a : Account) (signal : Signal)
    (row : Bar) (d : ℕ) :
    ∃ a' tr, execute_sell cfg a signal row d = .ok (a', tr)
      ∧ a'.current_date = a.current_date
      ∧ (0 ≤ row.close → 0 ≤ cfg.commission_rate → cfg.commission_rate ≤ 1 →
          a.cash ≤ a'.cash) := by
  simp only [execute_sell]
  by_cases h1 : a.get_available_shares signal.ticker ≤ 0
  · exact ⟨a, none, by rw [if_pos h1], rfl, fun _ _ _ => le_refl _⟩
  · rw [if_neg h1]
    have hav : 0 < a.get_available_shares signal.ticker := not_le.mp h1
    set s := (match signal.amount with
      | none => a.get_available_shares signal.ticker
      | some amt => min (amt / row.close) (a.get_available_shares signal.ticker)) with hs
    by_cases h2 : s ≤ 0
    · exact ⟨a, none, by rw [if_pos h2], rfl, fun _ _ _ => le_refl _⟩
    · rw [if_neg h2]
      have hspos : 0 < s := not_le.mp h2
      have hsle : s ≤ a.get_available_shares signal.ticker := by
        rw [hs]
        cases signal.amount with
        | none => exact le_refl _
        | some amt => exact min_le_right _ _
      have hkey : (a.positions.find? (fun e => e.fst == signal.ticker)).isNone = false := by
        cases hfind : a.positions.find? (fun e => e.fst == signal.ticker) with
        | none =>
          exfalso
          have h0 : a.get_available_shares signal.ticker = 0 := by
            rw [Account.get_available_shares, dictGet, hfind]
          rw [h0] at hav
          exact lt_irrefl 0 hav
        | some e => rfl
      rw [sell_succeeds hsle hkey row.close cfg.commission_rate]
      refine ⟨_, _, rfl, rfl, fun hc hr0 hr1 => ?_⟩
      have hnet : 0 ≤ s * row.close - s * row.close * cfg.commission_rate := by
        nlinarith [mul_nonneg (mul_nonneg hspos.le hc) (sub_nonneg.mpr hr1)]
      show a.cash ≤ a.cash + (s * row.close - s * row.close * cfg.commission_rate)
      linarith

/-- Bars returned by getBar come from the loaded table. -/
lemma getBar_mem {all_data : List (String × TickerData)} {t : String} {d : ℕ} {row : Bar}
    (h : getBar all_data t d = some row) :
    ∃ e ∈ all_data, ∃ b ∈ e.2.bars, b.2 = row := by
  rw [getBar] at h
  cases hfind : all_data.find? (fun e => e.fst == t) with
  | none => rw [hfind] at h; exact absurd h (by simp)
  | some e =>
    rw [hfind] at h
    have h' : (e.2.bars.find? (fun b => b.fst == d)).map Prod.snd = some row := h
    cases hfind2 : e.2.bars.find? (fun b => b.fst == d) with
    | none => rw [hfind2] at h'; exact absurd h' (by simp)
    | some b =>
      rw [hfind2] at h'
      simp only [Option.map_some', Option.some.injEq] at h'
      exact ⟨e, List.mem_of_find?_eq_some hfind, b, List.mem_of_find?_eq_some hfind2, h'⟩

/-- Unfolding of the sell phase on a ticker with a bar today. -/
lemma sellPhase_cons_some {cfg : BacktestConfig} {all_data : List (String × TickerData)}
    {d : ℕ} {t : String} {rest : List String} {a : Account} {trades : List TradeRecord}
    {row : Bar} (hbar : getBar all_data t d = some row) :
    sellPhase cfg all_data d (t :: rest) a trades
      = if a.get_available_shares t > 0 then
          match execute_sell cfg a ⟨"sell", t, none⟩ row d with
          | .error e => .error e
          | .ok (a', tr) => sellPhase cfg all_data d rest a' (trades ++ tr.toList)
        else sellPhase cfg all_data d rest a trades := by
  rw [sellPhase, hbar]

/-- Unfolding of the sell phase on a ticker without a bar today. -/
lemma sellPhase_cons_none {cfg : BacktestConfig} {all_data : List (String × TickerData)}
    {d : ℕ} {t : String} {rest : List String} {a : Account} {trades : List TradeRecord}
    (hbar : getBar all_data t d = none) :
    sellPhase cfg all_data d (t :: rest) a trades = sellPhase cfg all_data d rest a trades := by
  rw [sellPhase, hbar]

/-- The sell phase never fails, preserves the current date, and never
decreases cash when the data has nonnegative closes and the commission
rate is between zero and one. -/
lemma sellPhase_spec (cfg : BacktestConfig) (all_data : List (String × TickerData)) (d : ℕ) :
    ∀ (tickers : List String) (a : Account) (trades : List TradeRecord),
    ∃ a' trades', sellPhase cfg all_data d tickers a trades = .ok (a', trades')
      ∧ a'.current_date = a.current_date
      ∧ ((∀ e ∈ all_data, ∀ b ∈ e.2.bars, 0 ≤ b.2.close) →
          0 ≤ cfg.commission_rate → cfg.commission_rate ≤ 1 → a.cash ≤ a'.cash) := by
  intro tickers
  induction tickers with
  | nil => intro a trades; exact ⟨a, trades, rfl, rfl, fun _ _ _ => le_refl _⟩
  | cons t rest ih =>
    intro a trades
    cases hbar : getBar all_data t d with
    | none =>
      rw [sellPhase_cons_none hbar]
      exact ih a trades
    | some row =>
      rw [sellPhase_cons_some hbar]
      by_cases hava : a.get_available_shares t > 0
      · rw [if_pos hava]
        obtain ⟨a1, tr, hexec, hdate1, hcash1⟩ :=
          execute_sell_spec cfg a ⟨"sell", t, none⟩ row d
        rw [hexec]
        obtain ⟨a', trades', heq, hdate2, hcash2⟩ := ih a1 (trades ++ tr.toList)
        refine ⟨a', trades', heq, hdate2.trans hdate1, fun hd hr0 hr1 => ?_⟩
        have hclose : 0 ≤ row.close := by
          obtain ⟨e, he, b, hb, hrow⟩ := getBar_mem hbar
          rw [← hrow]
          exact hd e he b hb
        exact le_trans (hcash1 hclose hr0 hr1) (hcash2 hd hr0 hr1)
      · rw [if_neg hava]
        obtain ⟨a', trades', heq, hdate, hcash⟩ := ih a trades
        exact ⟨a', trades', heq, hdate, hcash⟩

/-- The buy outcome preserves the current date and keeps cash nonnegative
(an executed buy spends at most the available cash). -/
lemma buy_outcome_spec (cfg : BacktestConfig) (a : Account) (signal : Signal) (row : Bar)
    (df_attrs : FeeAttrs) (trading_days : List ℕ) (current_date cur : ℕ) :
    (buy_outcome cfg a signal row df_attrs trading_days current_date cur).1.current_date
        = a.current_date
  ∧ (0 ≤ a.cash →
      0 ≤ (buy_outcome cfg a signal row df_attrs trading_days current_date cur).1.cash) := by
  rw [buy_outcome]
  split
  · exact ⟨rfl, fun _ => sub_nonneg.mpr (capped_amount_le_cash cfg a signal row)⟩
  · exact ⟨rfl, id⟩

/-- The greedy buy loop never fails, preserves the current date, and keeps
cash nonnegative. -/
lemma buyLoop_spec (cfg : BacktestConfig) (trading_days : List ℕ) (d cur : ℕ) :
    ∀ (candidates : List Candidate) (a : Account) (trades : List TradeRecord),
    a.current_date = some cur →
    ∃ a' trades', buyLoop cfg trading_days d candidates a trades = .ok (a', trades')
      ∧ a'.current_date = some cur
      ∧ (0 ≤ a.cash → 0 ≤ a'.cash) := by
  intro candidates
  induction candidates with
  | nil => intro a trades hcur; exact ⟨a, trades, rfl, hcur, id⟩
  | cons c rest ih =>
    intro a trades hcur
    rw [buyLoop]
    by_cases h1 : a.cash ≤ 0
    · rw [if_pos h1]; exact ⟨a, trades, rfl, hcur, id⟩
    · rw [if_neg h1]
      rw [execute_buy_eq_outcome cfg a ⟨"buy", c.ticker, none⟩ c.row c.attrs
        trading_days d cur hcur]
      have hspec := buy_outcome_spec cfg a ⟨"buy", c.ticker, none⟩ c.row c.attrs
        trading_days d cur
      obtain ⟨a', trades', heq, hdate2, hcash2⟩ :=
        ih (buy_outcome cfg a ⟨"buy", c.ticker, none⟩ c.row c.attrs trading_days d cur).1
          (trades ++ (buy_outcome cfg a ⟨"buy", c.ticker, none⟩ c.row c.attrs
            trading_days d cur).2.toList)
          (hspec.1.trans hcur)
      exact ⟨a', trades', heq, hdate2, fun h => hcash2 (hspec.2 h)⟩

/-- Unfolding of the day step after the sell phase result is known. -/
lemma dayStep_eq {cfg : BacktestConfig} {all_data : List (String × TickerData)}
    {tickers : List String} {trading_days : List ℕ} {d : ℕ} {a : Account}
    {trades : List TradeRecord} {a1 : Account} {trades1 : List TradeRecord}
    (h1 : sellPhase cfg all_data d tickers (a.update_date d) trades = .ok (a1, trades1)) :
    dayStep cfg all_data tickers trading_days d a trades
      = match buyLoop cfg trading_days d
          (sort_candidates (collect_candidates cfg all_data tickers d)) a1 trades1 with
        | .error e => .error e
        | .ok (a2, trades2) =>
          .ok (a2, trades2,
            ⟨d, a2.get_total_value (day_prices all_data tickers d), a2.cash,
             a2.get_positions_value (day_prices all_data tickers d)⟩) := by
  simp only [dayStep]
  rw [h1]

/-- A day step never fails; the resulting account carries the day as its
current date, the snapshot cash is the account cash, and cash stays
nonnegative under the data and commission conditions. -/
lemma dayStep_spec (cfg : BacktestConfig) (all_data : List (String × TickerData))
    (tickers : List String) (trading_days : List ℕ) (d : ℕ) (a : Account)
    (trades : List TradeRecord) :
    ∃ a' trades' record, dayStep cfg all_data tickers trading_days d a trades
        = .ok (a', trades', record)
      ∧ a'.current_date = some d
      ∧ record.cash = a'.cash
      ∧ ((∀ e ∈ all_data, ∀ b ∈ e.2.bars, 0 ≤ b.2.close) → 0 ≤ cfg.commission_rate →
          cfg.commission_rate ≤ 1 → 0 ≤ a.cash → 0 ≤ a'.cash) := by
  obtain ⟨a1, trades1, heq1, hdate1, hcash1⟩ :=
    sellPhase_spec cfg all_data d tickers (a.update_date d) trades
  rw [dayStep_eq heq1]
  have hdate1' : a1.current_date = some d := by
    rw [hdate1, update_date_current]
  obtain ⟨a2, trades2, heq2, hdate2, hcash2⟩ :=
    buyLoop_spec cfg trading_days d d
      (sort_candidates (collect_candidates cfg all_data tickers d)) a1 trades1 hdate1'
  rw [heq2]
  refine ⟨a2, trades2, _, rfl, hdate2, rfl, fun hd hr0 hr1 hc => ?_⟩
  refine hcash2 ?_
  have hstep : (a.update_date d).cash = a.cash := update_date_cash a d
  have := hcash1 hd hr0 hr1
  linarith

/-- The run loop never fails, and every snapshot it records has cash at
least -eps under the data and commission conditions. -/
lemma runLoop_spec (cfg : BacktestConfig) (all_data : List (String × TickerData))
    (tickers : List String) (trading_days : List ℕ) :
    ∀ (ds : List ℕ) (a : Account) (trades : List TradeRecord) (daily : List DailyRecord),
    ∃ r, runLoop cfg all_data tickers trading_days ds a trades daily = .ok r
      ∧ ((∀ e ∈ all_data, ∀ b ∈ e.2.bars, 0 ≤ b.2.close) → 0 ≤ cfg.commission_rate →
          cfg.commission_rate ≤ 1 → 0 ≤ a.cash →
          (∀ rec1 ∈ daily, -eps ≤ rec1.cash) →
          ∀ rec1 ∈ r.daily_perf, -eps ≤ rec1.cash) := by
  intro ds
  induction ds with
  | nil =>
    intro a trades daily
    exact ⟨⟨daily, trades, a⟩, rfl, fun _ _ _ _ hd => hd⟩
  | cons d rest ih =>
    intro a trades daily
    rw [runLoop]
    obtain ⟨a1, trades1, record1, heq1, hdate1, hreccash, hcash1⟩ :=
      dayStep_spec cfg all_data tickers trading_days d a trades
    rw [heq1]
    obtain ⟨r, heq2, hinv⟩ := ih a1 trades1 (daily ++ [record1])
    refine ⟨r, heq2, fun hd hr0 hr1 hc hdaily => hinv hd hr0 hr1 (hcash1 hd hr0 hr1 hc) ?_⟩
    intro rec1 hrec
    rcases List.mem_append.mp hrec with h | h
    · exact hdaily rec1 h
    · have hr : rec1 = record1 := by simpa using h
      subst hr
      rw [hreccash]
      have h1 := hcash1 hd hr0 hr1 hc
      have hepspos : (0 : ℚ) < eps := by norm_num [eps]
      linarith

/-- C5: the ledger failure branches are unreachable from the day loop: for
every configuration, ticker list, data table and calendar the run returns a
result, never an error — every sell the loop issues requests exactly the
settled shares (within the eps tolerance) and every buy requests at most
the available cash, so the insufficient-shares and insufficient-cash
conditions never fire. -/
theorem claim_c5_no_ledger_failure (cfg : BacktestConfig) (tickers : List String)
    (all_data : List (String × TickerData)) (trading_days : List ℕ) :
    ∃ r, run cfg tickers all_data trading_days = .ok r := by
  obtain ⟨r, heq, -⟩ :=
    runLoop_spec cfg all_data tickers trading_days trading_days
      ⟨cfg.initial_cash, [], [], none⟩ [] []
  exact ⟨r, heq⟩

/-- C4 (amended): cash stays above the -1e-9 tolerance after every ledger
mutation of a run provided the commission rate is at most 1 and every
close price in the data is nonnegative: a date advance never changes cash,
an engine sell never decreases it, an engine buy keeps it nonnegative, and
consequently every daily snapshot of a run records cash ≥ -eps.  (Without
the extra rate and price conditions the claim fails, see the
counterexample.) -/
theorem claim_c4_cash_invariant :
    (∀ (a : Account) (d : ℕ), (a.update_date d).cash = a.cash)
  ∧ (∀ (cfg : BacktestConfig) (a : Account) (signal : Signal) (row : Bar) (d : ℕ)
      (a' : Account) (tr : Option TradeRecord),
      0 ≤ row.close → 0 ≤ cfg.commission_rate → cfg.commission_rate ≤ 1 →
      execute_sell cfg a signal row d = .ok (a', tr) → a.cash ≤ a'.cash)
  ∧ (∀ (cfg : BacktestConfig) (a : Account) (signal : Signal) (row : Bar)
      (df_attrs : FeeAttrs) (trading_days : List ℕ) (d cur : ℕ)
      (a' : Account) (tr : Option TradeRecord),
      a.current_date = some cur →
      execute_buy cfg a signal row df_attrs trading_days d = .ok (a', tr) →
      0 ≤ a.cash → 0 ≤ a'.cash)
  ∧ (∀ (cfg : BacktestConfig) (tickers : List String)
      (all_data : List (String × TickerData)) (trading_days : List ℕ) (r : RunResult),
      (∀ e ∈ all_data, ∀ b ∈ e.2.bars, 0 ≤ b.2.close) →
      0 ≤ cfg.commission_rate → cfg.commission_rate ≤ 1 → 0 ≤ cfg.initial_cash →
      run cfg tickers all_data trading_days = .ok r →
      ∀ record ∈ r.daily_perf, -eps ≤ record.cash) := by
  refine ⟨update_date_cash, ?_, ?_, ?_⟩
  · intro cfg a signal row d a' tr hclose hr0 hr1 h
    obtain ⟨a'', tr'', heq, -, hcash⟩ := execute_sell_spec cfg a signal row d
    rw [heq] at h
    simp only [Except.ok.injEq, Prod.mk.injEq] at h
    rw [← h.1]
    exact hcash hclose hr0 hr1
  · intro cfg a signal row df_attrs trading_days d cur a' tr hcur h hc
    rw [execute_buy_eq_outcome cfg a signal row df_attrs trading_days d cur hcur] at h
    simp only [Except.ok.injEq] at h
    have hspec := buy_outcome_spec cfg a signal row df_attrs trading_days d cur
    have := hspec.2 hc
    rw [h] at this
    exact this
  · intro cfg tickers all_data trading_days r hd hr0 hr1 hc h
    obtain ⟨r', heq, hinv⟩ :=
      runLoop_spec cfg all_data tickers trading_days trading_days
        ⟨cfg.initial_cash, [], [], none⟩ [] []
    rw [run] at h
    rw [heq] at h
    simp only [Except.ok.injEq] at h
    subst h
    exact hinv hd hr0 hr1 hc (by simp)

/-- Witness for the amended claim C4 on the one-day sample run: every
recorded snapshot keeps cash above the tolerance. -/
theorem claim_c4_cash_invariant_witness :
    -eps ≤ (⟨0, 98500, 0, 98500⟩ : DailyRecord).cash := by
  refine claim_c4_cash_invariant.2.2.2 safe_cfg ["A"] sample_data [0] _
    ?_ ?_ ?_ ?_ run_safe_eval ⟨0, 98500, 0, 98500⟩ (by simp)
  · intro e he b hb
    simp only [sample_data, List.mem_singleton] at he
    subst he
    simp only [sample_bar] at hb
    fin_cases hb <;> norm_num
  · norm_num [safe_cfg, cex_cfg]
  · norm_num [safe_cfg, cex_cfg]
  · norm_num [safe_cfg, cex_cfg]

/-- C4 counterexample: the configuration with commission rate 2 passes
validation (only nonnegativity is checked), yet the day-2 full liquidation
books negative net proceeds and leaves cash at -98500, far below the -1e-9
tolerance, so the claim fails for this valid configuration and input
data. -/
theorem claim_c4_cash_invariant_cex :
    cex_cfg.validate = true
  ∧ (match run cex_cfg ["A"] sample_data [0, 1, 2] with
     | .ok r => r.daily_perf.map DailyRecord.cash
     | .error _ => []) = [0, 0, -98500]
  ∧ ¬ (-eps ≤ (-98500 : ℚ)) := by
  refine ⟨by norm_num [BacktestConfig.validate, cex_cfg], ?_, by norm_num [eps]⟩
  norm_num [run, runLoop, dayStep, sellPhase, buyLoop, collect_candidates, sort_candidates,
    insertDesc, day_prices, getBar, execute_sell, execute_buy, Account.update_date,
    Account.sell, Account.buy, Account.get_available_shares, Account.get_total_value,
    Account.get_positions_value, calculate_subscription_fee, calculate_t2_date,
    dictGet, dictSet, xmin, xnonpos, xpos, eps, sample_data, cex_cfg, sample_bar,
    List.filterMap_cons, List.filterMap_nil, List.findIdx?_cons]

/-! ### Claim C6: greedy descending funding order -/

/-- Inserting a candidate is a permutation of prepending it. -/
lemma insertDesc_perm (c : Candidate) (l : List Candidate) :
    (insertDesc c l).Perm (c :: l) := by
  induction l with
  | nil => exact List.Perm.refl _
  | cons h t ih =>
    rw [insertDesc]
    by_cases hlt : h.premium_rate < c.premium_rate
    · rw [if_pos hlt]
    · rw [if_neg hlt]
      exact (ih.cons h).trans (List.Perm.swap c h t)

/-- Inserting into a descending-sorted list keeps it descending-sorted. -/
lemma insertDesc_sorted (c : Candidate) (l : List Candidate)
    (hs : List.Sorted (fun x y => y.premium_rate ≤ x.premium_rate) l) :
    List.Sorted (fun x y => y.premium_rate ≤ x.premium_rate) (insertDesc c l) := by
  induction l with
  | nil => simp [insertDesc]
  | cons h t ih =>
    rcases List.sorted_cons.mp hs with ⟨hall, ht⟩
    rw [insertDesc]
    by_cases hlt : h.premium_rate < c.premium_rate
    · rw [if_pos hlt]
      refine List.sorted_cons.mpr ⟨?_, hs⟩
      intro b hb
      rcases List.mem_cons.mp hb with rfl | hb
      · exact hlt.le
      · exact le_trans (hall b hb) hlt.le
    · rw [if_neg hlt]
      refine List.sorted_cons.mpr ⟨?_, ih ht⟩
      intro b hb
      rcases List.mem_cons.mp ((insertDesc_perm c t).mem_iff.mp hb) with rfl | hb
      · exact not_lt.mp hlt
      · exact hall b hb

/-- Inserting a candidate into a descending-sorted list places it after
every candidate with the same premium rate: the filtered slice of any
premium rate gains the new candidate at its end. -/
lemma insertDesc_filter (c : Candidate) (l : List Candidate) (q : ℚ)
    (hs : List.Sorted (fun x y => y.premium_rate ≤ x.premium_rate) l) :
    (insertDesc c l).filter (fun x => x.premium_rate == q)
      = l.filter (fun x => x.premium_rate == q)
        ++ (if c.premium_rate = q then [c] else []) := by
  induction l with
  | nil => by_cases hc : c.premium_rate = q <;> simp [insertDesc, List.filter_cons, hc]
  | cons h t ih =>
    rcases List.sorted_cons.mp hs with ⟨hall, ht⟩
    rw [insertDesc]
    by_cases hlt : h.premium_rate < c.premium_rate
    · rw [if_pos hlt]
      by_cases hc : c.premium_rate = q
      · have hnil : (h :: t).filter (fun x => x.premium_rate == q) = [] := by
          apply List.filter_eq_nil_iff.mpr
          intro x hx
          have hxlt : x.premium_rate < c.premium_rate := by
            rcases List.mem_cons.mp hx with rfl | hx'
            · exact hlt
            · exact lt_of_le_of_lt (hall x hx') hlt
          rw [hc] at hxlt
          simp only [beq_iff_eq]
          exact ne_of_lt hxlt
        simp [List.filter_cons, hc, hnil]
      · simp [List.filter_cons, hc]
    · rw [if_neg hlt]
      rw [List.filter_cons, List.filter_cons]
      by_cases hh : h.premium_rate = q <;>
        simp [hh, ih ht, List.append_assoc]

/-- sort_candidates applied to one more candidate at the end. -/
lemma sort_candidates_append (l : List Candidate) (x : Candidate) :
    sort_candidates (l ++ [x]) = insertDesc x (sort_candidates l) := by
  simp [sort_candidates, List.foldl_append]

/-- The loop walks candidates in descending premium-rate order. -/
lemma sort_candidates_sorted (l : List Candidate) :
    List.Sorted (fun x y => y.premium_rate ≤ x.premium_rate) (sort_candidates l) := by
  induction l using List.reverseRecOn with
  | nil => simp [sort_candidates]
  | append_singleton xs x ih =>
    rw [sort_candidates_append]
    exact insertDesc_sorted x _ ih

/-- The sorted candidate list is a permutation of the collected one. -/
lemma sort_candidates_perm (l : List Candidate) : (sort_candidates l).Perm l := by
  induction l using List.reverseRecOn with
  | nil => exact List.Perm.refl _
  | append_singleton xs x ih =>
    rw [sort_candidates_append]
    exact ((insertDesc_perm x _).trans (ih.cons x)).trans
      (List.perm_append_singleton x xs).symm

/-- Stability: candidates of equal premium rate stay in input order. -/
lemma sort_candidates_stable (l : List Candidate) (q : ℚ) :
    (sort_candidates l).filter (fun c => c.premium_rate == q)
      = l.filter (fun c => c.premium_rate == q) := by
  induction l using List.reverseRecOn with
  | nil => simp [sort_candidates]
  | append_singleton xs x ih =>
    rw [sort_candidates_append,
      insertDesc_filter x _ q (sort_candidates_sorted xs), ih, List.filter_append]
    by_cases hx : x.premium_rate = q <;> simp [List.filter_singleton, hx]

/-- C6: buy candidates are funded in descending premium-rate order with
stable ties: the list the greedy loop walks is a permutation of the
collected candidates, sorted by descending premium rate, and candidates of
equal premium rate keep their input order; in the concrete scenario with
simultaneous candidates at premium rates 0.05 (listed first) and 0.10,
threshold 0.02 and cash sufficient for one, only the 0.10 candidate is
bought. -/
theorem claim_c6_greedy_order :
    (∀ l : List Candidate,
      List.Sorted (fun x y => y.premium_rate ≤ x.premium_rate) (sort_candidates l)
      ∧ (sort_candidates l).Perm l
      ∧ ∀ q : ℚ, (sort_candidates l).filter (fun c => c.premium_rate == q)
          = l.filter (fun c => c.premium_rate == q))
  ∧ (match run safe_cfg ["A", "B"] greedy_data [0] with
     | .ok r => r.trade_logs.map (fun t => (t.action, t.ticker))
     | .error _ => []) = [("buy", "B")] := by
  refine ⟨fun l => ⟨sort_candidates_sorted l, sort_candidates_perm l,
    fun q => sort_candidates_stable l q⟩, ?_⟩
  have hab : ("A" = "B") = False := by simp
  have hba : ("B" = "A") = False := by simp
  norm_num [hab, hba, run, runLoop, dayStep, sellPhase, buyLoop, collect_candidates,
    sort_candidates,
    insertDesc, day_prices, getBar, execute_sell, execute_buy, Account.update_date,
    Account.sell, Account.buy, Account.get_available_shares, Account.get_total_value,
    Account.get_positions_value, calculate_subscription_fee, calculate_t2_date,
    dictGet, dictSet, xmin, xnonpos, xpos, eps, greedy_data, safe_cfg, cex_cfg, sample_bar,
    List.filterMap_cons, List.filterMap_nil, List.findIdx?_cons]
